import Mathlib

/-!
# Verification of the django-castor content-addressable storage core

Shallow embedding of the `djcastor` package (files `djcastor/utils.py` and
`djcastor/storage.py`) together with proofs about the embedded definitions.

Modelling conventions:
* a Python `str` is modelled as `List Char` (`Str` below); slicing `s[a:b]`
  is `(s.take b).drop a`, which clamps exactly like Python slices;
* byte strings (file contents) are modelled as `List Nat`;
* filesystem paths are modelled as lists of path segments
  (`List Str`), and the filesystem itself as an explicit record of the
  existing files (with contents) and directories;
* Python functions that can raise are modelled as `Except PyErr`.
-/

set_option autoImplicit false

namespace DjCastor

/-- A Python `str`, modelled as its list of characters. -/
abbrev Str : Type := List Char

/-- Errors raised by the embedded Python code. -/
inductive PyErr where
  /-- Python `AttributeError` (attribute lookup failure). -/
  | attributeError
  /-- Django `SuspiciousOperation` (the spec's `SecurityViolation`). -/
  | suspiciousOperation
  /-- Python `FileNotFoundError` from `stat`, `unlink` or `listdir` on a missing path. -/
  | fileNotFound
  /-- other `OSError` (e.g. `rmdir` on the filesystem root). -/
  | osError
deriving DecidableEq, Repr

namespace Utils

/-- Python slice `s[a:b]` (for non-negative bounds): characters at positions
`[a, b)`, clamped to the end of the string. -/
def pySlice (s : Str) (a b : Nat) : Str := (s.take b).drop a

/-- Model of `djcastor.utils.shard(string, width, depth, rest_only)`.

The Python generator yields `string[width*i : width*(i+1)]` for
`i in range(depth)`, and then one final element: `string[width*depth :]` if
`rest_only` else the whole `string`.  The generator is modelled as the list
of its yielded elements. -/
def shard (string : Str) (width depth : Nat) (rest_only : Bool) : List Str :=
  ((List.range depth).map (fun i => pySlice string (width * i) (width * (i + 1))))
    ++ [if rest_only then string.drop (width * depth) else string]

/-- Model of `djcastor.utils.hash_chunks(iterator, digestmod)`.

The Python code folds `digest.update(chunk)` over the iterator starting from
the fresh accumulator `digestmod()` and returns `digest.hexdigest()`.  A
hashlib accumulator is modelled by the byte string it has absorbed so far
(`update` appends, per the hashlib contract `m.update(a); m.update(b)` ≡
`m.update(a+b)`), and `hexdigest` applies the pluggable digest function
`digestmod` to the absorbed bytes. -/
def hash_chunks (digestmod : List Nat → Str) (iterator : List (List Nat)) : Str :=
  digestmod (iterator.foldl (fun digest chunk => digest ++ chunk) [])

end Utils

/-- The example digest used throughout the repository's doctests. -/
def demoDigest40 : Str := "1f09d30c707d53f3d16c530dd73d70a6ce7596a9".toList

/-- A concrete pluggable digest function used to instantiate witnesses
(the real default, SHA-1, is external to this repository). -/
def demoDigestmod (bytes : List Nat) : Str :=
  bytes.map (fun b => Char.ofNat (97 + b % 26))

/-- A POSIX filesystem state: the existing regular files (absolute path,
content bytes) and the existing directories (absolute paths).  An absolute
path is a list of path segments; `[]` is the filesystem root `/`.  The model
has no links or mounts, so two paths denote the same inode exactly when they
are equal. -/
structure FS where
  files : List (List Str × List Nat)
  dirs : List (List Str)
deriving DecidableEq, Repr

/-- The paths of the existing regular files. -/
def FS.filePaths (fs : FS) : List (List Str) := fs.files.map Prod.fst

/-- Model of `os.path.exists` for a regular file. -/
def FS.existsFile (fs : FS) (p : List Str) : Bool := decide (p ∈ fs.filePaths)

/-- Model of `stat` succeeding on a directory. -/
def FS.existsDir (fs : FS) (p : List Str) : Bool := decide (p ∈ fs.dirs)

/-- Model of `os.listdir(d)`: the entries (files and subdirectories) whose parent
directory is `d`. -/
def FS.listdir (fs : FS) (d : List Str) : List (List Str) :=
  (fs.filePaths ++ fs.dirs).filter (fun q => decide (q ≠ []) && decide (q.dropLast = d))

/-- Model of `os.unlink(p)`: remove the regular file at `p`; `FileNotFoundError` if it
does not exist. -/
def FS.unlinkE (fs : FS) (p : List Str) : Except PyErr FS :=
  if fs.existsFile p then
    .ok { fs with files := fs.files.filter (fun e => decide (e.1 ≠ p)) }
  else .error .fileNotFound

/-- Model of `os.rmdir(d)`: remove the directory at `d`; errors if it is missing or
not empty. -/
def FS.rmdirE (fs : FS) (d : List Str) : Except PyErr FS :=
  if fs.existsDir d = false then .error .fileNotFound
  else if fs.listdir d ≠ [] then .error .osError
  else .ok { fs with dirs := fs.dirs.filter (fun q => decide (q ≠ d)) }

/-- Model of `os.makedirs(d, exist_ok=True)` followed by writing the file at `p`:
creates every missing ancestor directory of `p` (never the filesystem root
`[]`) and records the file.  Used only to model Django's
`FileSystemStorage._save` (see `FileSystemStorage_save`). -/
def FS.write (fs : FS) (p : List Str) (content : List Nat) : FS :=
  { files := (p, content) :: fs.files
    dirs := fs.dirs ++
      (p.dropLast.inits.filter (fun q => decide (q ∉ fs.dirs) && decide (q ≠ []))) }

namespace Utils

/-- The loop of `djcastor.utils.rm_file_and_empty_parents`:

```
while not (root and path.samestat(root_stat, stat(directory))):
    if listdir(directory):
        break
    rmdir(directory)
    directory = path.dirname(directory)
```

`stat(directory)` (evaluated inside the `while` condition when `root` is
truthy, and by `listdir` otherwise) raises if the directory is missing;
`samestat` compares inodes, which in this link-free model is path equality.
`dirname` is `List.dropLast`.  At the filesystem root `[]` the real `rmdir`
fails with `OSError` (`EBUSY`), which keeps the model total there. -/
def pruneLoop (fs : FS) (directory : List Str) (root : Option (List Str)) :
    Except PyErr FS :=
  if fs.existsDir directory = false then .error .fileNotFound
  else if (match root with | none => false | some r => decide (r = directory)) then .ok fs
  else if fs.listdir directory ≠ [] then .ok fs
  else if hnil : directory = [] then .error .osError
  else
    match fs.rmdirE directory with
    | .error e => .error e
    | .ok fs₂ => pruneLoop fs₂ directory.dropLast root
termination_by directory.length
decreasing_by
  simp only [List.length_dropLast]
  have h0 : directory.length ≠ 0 := fun hc => hnil (List.eq_nil_of_length_eq_zero hc)
  omega

/-- Model of `djcastor.utils.rm_file_and_empty_parents(filename, root)`: stat the root
(when given), unlink the file, then remove now-empty parent directories
upward (see `pruneLoop`). -/
def rm_file_and_empty_parents (fs : FS) (filename : List Str)
    (root : Option (List Str)) : Except PyErr FS :=
  match root with
  | some r =>
    if fs.existsDir r = false then .error .fileNotFound  -- root_stat = stat(root)
    else
      match fs.unlinkE filename with
      | .error e => .error e
      | .ok fs₁ => pruneLoop fs₁ filename.dropLast (some r)
  | none =>
    match fs.unlinkE filename with
    | .error e => .error e
    | .ok fs₁ => pruneLoop fs₁ filename.dropLast none

end Utils

namespace OsPath

/-- Python `str.split('/')` on a modelled string: splits at every `'/'`,
keeping empty pieces (so `"a//b"` gives `["a", "", "b"]` and `""` gives
`[""]`). -/
def splitSep : Str → List Str
  | [] => [[]]
  | c :: cs =>
    if c = '/' then [] :: splitSep cs
    else
      match splitSep cs with
      | [] => [[c]]
      | g :: gs => (c :: g) :: gs

/-- One step of POSIX path normalization over an absolute path's segments:
empty segments and `"."` are dropped, `".."` removes the previous segment
(at the root it stays at the root, as `posixpath.normpath` does for absolute
paths), and any other segment is kept. -/
def normStep (acc : List Str) (seg : Str) : List Str :=
  if seg = [] ∨ seg = ['.'] then acc
  else if seg = ['.', '.'] then acc.dropLast
  else acc ++ [seg]

/-- Model of `os.path.normpath` on an absolute path, over its segments. -/
def normSegs (segs : List Str) : List Str := segs.foldl normStep []

/-- Model of Python `str.rfind(c)`: the highest index at which `c` occurs,
or `-1` if it does not occur. -/
def pyRfind (c : Char) : Str → Int
  | [] => -1
  | a :: rest =>
    let r := pyRfind c rest
    if 0 ≤ r then r + 1
    else if a = c then 0
    else -1

/-- Model of `posixpath.splitext(p)` (used by `os.path.splitext`):

```
sepIndex = p.rfind('/')
dotIndex = p.rfind('.')
if dotIndex > sepIndex:
    filenameIndex = sepIndex + 1
    while filenameIndex < dotIndex:
        if p[filenameIndex] != '.':
            return p[:dotIndex], p[dotIndex:]
        filenameIndex += 1
return p, ''
```

The scanning `while` loop returns the split exactly when some character at a
position in `[sepIndex+1, dotIndex)` is not a dot; that scan is modelled by
`List.any` over that very slice. -/
def splitext (p : Str) : Str × Str :=
  let sepIndex := pyRfind '/' p
  let dotIndex := pyRfind '.' p
  if sepIndex < dotIndex then
    if ((p.drop (sepIndex + 1).toNat).take (dotIndex - sepIndex - 1).toNat).any
        (fun ch => ch ≠ '.') then
      (p.take dotIndex.toNat, p.drop dotIndex.toNat)
    else (p, [])
  else (p, [])

end OsPath

/-- Modelled from the spec: `django.utils._os.safe_join(base, *paths)` is
Django library code, not part of this repository.  Per the spec's words,
`physical_path` must "join them onto the root directory, and normalize" and
"if the joined path would escape the configured root, fail ... (never
silently resolve outside root)".  The model joins the parts onto the base
(splitting each part at its separators), normalizes, and fails exactly when
the normalized result does not lie inside the (normalized) base. -/
def safe_join (base : List Str) (parts : List Str) : Except Unit (List Str) :=
  let final := OsPath.normSegs (base ++ (parts.map OsPath.splitSep).flatten)
  if (OsPath.normSegs base).isPrefixOf final then .ok final else .error ()

/-- Model of the `djcastor.storage.CAStorage` configuration state: the root directory
(`location`, from `FileSystemStorage`), the sharding width and depth, and the
keep-extension flag.  (`base_url` only affects `url`, which no claim is
about, and is omitted.) -/
structure CAStorage where
  location : List Str
  shard_width : Nat
  shard_depth : Nat
  keep_extension : Bool
deriving DecidableEq, Repr

/-- Model of the `CAStorage.shard` method:
`list(shard(hexdigest, self.shard_width, self.shard_depth, rest_only=False))`. -/
def CAStorage.shard (st : CAStorage) (hexdigest : Str) : List Str :=
  Utils.shard hexdigest st.shard_width st.shard_depth false

/-- Model of `CAStorage.path(name)`:

```
shards = self.shard(name)
try:
    path = safe_join(self.location, *shards)
except ValueError:
    raise SuspiciousOperation(...)
return smart_str(os_path.normpath(path))
```

(`smart_str` is the identity on `str`.) -/
def CAStorage.path (st : CAStorage) (name : Str) : Except PyErr (List Str) :=
  match safe_join st.location (st.shard name) with
  | .error _ => .error .suspiciousOperation
  | .ok p => .ok (OsPath.normSegs p)

/-- Model of `CAStorage.digest(content)`: `hash_chunks(content.chunks())`.
`content.chunks()` yields byte chunks whose concatenation is the content, so
it is modelled as the single-chunk iterator (by
`hash_chunks_chunking_invariant`, any chunking gives the same digest).  The
temporary-file branch hashes the same bytes through the same accumulator. -/
def CAStorage.digest (digestmod : List Nat → Str) (content : List Nat) : Str :=
  Utils.hash_chunks digestmod [content]

/-- Modelled from the spec: Django's `FileSystemStorage._save(name, content)`
is library code, not part of this repository.  Per the spec's words, on a
cache miss save must "create any missing ancestor directories and atomically
write the content ... into place at `physical_path(stored_name)`" and
"Return `stored_name`".  (`FileSystemStorage._save` resolves the path through
the overridden `CAStorage.path`.) -/
def FileSystemStorage_save (st : CAStorage) (fs : FS) (name : Str)
    (content : List Nat) : Except PyErr (FS × Str) :=
  match st.path name with
  | .error e => .error e
  | .ok p => .ok (fs.write p content, name)

/-- Model of `CAStorage._save(name, content)`:

```
digest = self.digest(content)
if self.keep_extension:
    digest += os_path.splitext(name)[1]
path = self.path(digest)
if os_path.exists(path):
    return digest
return super(CAStorage, self)._save(digest, content)
```
-/
def CAStorage._save (st : CAStorage) (digestmod : List Nat → Str) (fs : FS)
    (name : Str) (content : List Nat) : Except PyErr (FS × Str) :=
  let digest := CAStorage.digest digestmod content
  let digest := if st.keep_extension then digest ++ (OsPath.splitext name).2 else digest
  match st.path digest with
  | .error e => .error e
  | .ok p =>
    if fs.existsFile p then .ok (fs, digest)
    else FileSystemStorage_save st fs digest content

/-- Model of `CAStorage.delete(name, sure)`.

```
if not sure:
    return
path = name
if path.sep not in path: # type: ignore
    path = self.path(name)
rm_file_and_empty_parents(path, root=self.location)
```

When `sure` is false the method returns at once, leaving the filesystem
unchanged.  When `sure` is true, `path` has just been rebound to the `str`
`name`, so the guard evaluates `path.sep` — an attribute lookup on `str`,
which has no attribute `sep` — and raises `AttributeError` before any
dispatch, path resolution, unlink or prune can happen.  (The `# type: ignore`
silences the type checker on exactly this lookup; the intended expression was
`os.path.sep`.)  The lines after the guard are unreachable for `sure=True`. -/
def CAStorage.delete (st : CAStorage) (fs : FS) (name : Str) (sure : Bool) :
    Except PyErr FS :=
  if sure = false then .ok fs
  else .error .attributeError

/-- A concrete store rooted at `/data`, sharding `(2, 2)`, extensions off. -/
def demoStore : CAStorage := ⟨["data".toList], 2, 2, false⟩

/-- A concrete store rooted at `/data`, sharding `(2, 2)`, extensions on. -/
def demoStoreExt : CAStorage := ⟨["data".toList], 2, 2, true⟩

/-- The empty filesystem. -/
def demoFS0 : FS := ⟨[], []⟩

/-- The filesystem after saving content `[1]` (digest `"b"` under
`demoDigestmod`) into the empty filesystem through `demoStore`. -/
def demoFS1 : FS :=
  ⟨[(["data".toList, "b".toList, "b".toList], [1])],
   [["data".toList], ["data".toList, "b".toList]]⟩

/-- The filesystem after saving content `[1]` with original name
`"photo.png"` into the empty filesystem through `demoStoreExt`. -/
def demoFSext : FS :=
  ⟨[(["data".toList, "b.".toList, "pn".toList, "b.png".toList], [1])],
   [["data".toList], ["data".toList, "b.".toList],
    ["data".toList, "b.".toList, "pn".toList]]⟩

/-- A filesystem holding exactly the spec's prune example: root `/data`, one
stored file `/data/1f/09/<digest>`, and its two shard directories. -/
def demoFSprune : FS :=
  ⟨[(["data".toList, "1f".toList, "09".toList, demoDigest40], [7])],
   [["data".toList], ["data".toList, "1f".toList],
    ["data".toList, "1f".toList, "09".toList]]⟩

/-- The path of the stored file in `demoFSprune`. -/
def demoPrunePath : List Str :=
  ["data".toList, "1f".toList, "09".toList, demoDigest40]

/-- The configured root of `demoFSprune`. -/
def demoRoot : List Str := ["data".toList]

/-- The extension rule in the words of the amended claim C7: the extension is
the text of the last path component (the text after the last `'/'`) from its
last `'.'` to the end, including the dot; it is empty when the component has
no dot, and also empty when every character of the component before that last
dot is itself a dot (hidden "dotfiles" such as `".png"` keep no extension).
Proved equal to the code's `splitext` in `splitext_snd_eq_claimedExt`. -/
def claimedExt (p : Str) : Str :=
  let base := p.drop ((OsPath.pyRfind '/' p) + 1).toNat
  let d := OsPath.pyRfind '.' base
  if d < 0 then []
  else if (base.take d.toNat).all (fun ch => ch == '.') then []
  else base.drop d.toNat

end DjCastor

namespace DjCastor

lemma foldl_append_eq_join (l : List (List Nat)) :
    ∀ acc : List Nat, l.foldl (fun digest chunk => digest ++ chunk) acc = acc ++ l.flatten := by
  induction l with
  | nil => intro acc; simp
  | cons c cs ih => intro acc; simp [ih, List.flatten]

lemma flatten_map_range_pySlice (s : Str) (w : Nat) :
    ∀ d : Nat,
      (((List.range d).map (fun i => Utils.pySlice s (w * i) (w * (i + 1))))).flatten
        = s.take (w * d) := by
  intro d
  induction d with
  | zero => simp
  | succ d ih =>
    rw [List.range_succ, List.map_append, List.flatten_append, ih]
    simp only [List.map_cons, List.map_nil, List.flatten_cons, List.flatten_nil, List.append_nil]
    have h1 : (s.take (w * (d + 1))).take (w * d) = s.take (w * d) := by
      rw [List.take_take]
      congr 1
      have : w * d ≤ w * (d + 1) := Nat.mul_le_mul_left w (Nat.le_succ d)
      omega
    calc s.take (w * d) ++ Utils.pySlice s (w * d) (w * (d + 1))
        = (s.take (w * (d + 1))).take (w * d)
            ++ (s.take (w * (d + 1))).drop (w * d) := by
          rw [h1]; rfl
      _ = s.take (w * (d + 1)) := List.take_append_drop _ _

/-- C2: `shard` yields exactly `depth + 1` segments; segment `i` (for
`i < depth`) is the slice of the input at character positions
`[width*i, width*(i+1))`; the final segment is the whole original string when
`rest_only` is false and the remainder from position `width*depth` when it is
true; and on the doctest digest with width 2 and depth 2 it yields
`["1f", "09", "1f09d30c707d53f3d16c530dd73d70a6ce7596a9"]`. -/
theorem shard_segments (s : Str) (width depth : Nat) (rest_only : Bool) :
    (Utils.shard s width depth rest_only).length = depth + 1 ∧
    (∀ i : Nat, i < depth →
      (Utils.shard s width depth rest_only)[i]? =
        some (Utils.pySlice s (width * i) (width * (i + 1)))) ∧
    (Utils.shard s width depth rest_only).getLast? =
      some (if rest_only then s.drop (width * depth) else s) ∧
    Utils.shard demoDigest40 2 2 false =
      ["1f".toList, "09".toList, demoDigest40] := by
  refine ⟨?_, ?_, ?_, ?_⟩
  · simp [Utils.shard]
  · intro i hi
    have hlen : i < ((List.range depth).map
        (fun i => Utils.pySlice s (width * i) (width * (i + 1)))).length := by
      simpa using hi
    rw [Utils.shard, List.getElem?_append_left hlen]
    simp [hi]
  · exact List.getLast?_concat _
  · decide

/-- Witness for C2 at a concrete input: segment 0 of the doctest digest. -/
theorem shard_segments_witness :
    (0 < 2) ∧
    (Utils.shard demoDigest40 2 2 false)[0]? =
      some (Utils.pySlice demoDigest40 (2 * 0) (2 * (0 + 1))) :=
  ⟨by decide, (shard_segments demoDigest40 2 2 false).2.1 0 (by decide)⟩

/-- C9: `shard` is total for every width and depth: it always yields
`depth + 1` segments; each directory segment has length at most `width` and
is empty once the string is exhausted (`s.length ≤ width * i`); and depth 0
yields only the single final segment, which is the whole string for both
values of `rest_only`. -/
theorem shard_total (s : Str) (width : Nat) (rest_only : Bool) :
    (∀ depth : Nat, (Utils.shard s width depth rest_only).length = depth + 1) ∧
    (∀ depth i : Nat, i < depth →
      ∃ seg : Str, (Utils.shard s width depth rest_only)[i]? = some seg ∧
        seg.length ≤ width ∧ (s.length ≤ width * i → seg = [])) ∧
    Utils.shard s width 0 rest_only = [s] := by
  refine ⟨?_, ?_, ?_⟩
  · intro depth; simp [Utils.shard]
  · intro depth i hi
    refine ⟨Utils.pySlice s (width * i) (width * (i + 1)),
      (shard_segments s width depth rest_only).2.1 i hi, ?_, ?_⟩
    · simp only [Utils.pySlice, List.length_drop, List.length_take]
      have : width * (i + 1) = width * i + width := by ring
      omega
    · intro hs
      apply List.eq_nil_of_length_eq_zero
      simp only [Utils.pySlice, List.length_drop, List.length_take]
      omega
  · cases rest_only <;> simp [Utils.shard]

/-- Witness for C9 at a concrete input: a depth far beyond the string length. -/
theorem shard_total_witness :
    (3 < 5) ∧
    ∃ seg : Str, (Utils.shard ("ab".toList) 2 5 true)[3]? = some seg ∧
      seg.length ≤ 2 ∧ (("ab".toList : Str).length ≤ 2 * 3 → seg = []) :=
  ⟨by decide, (shard_total ("ab".toList) 2 true).2.1 5 3 (by decide)⟩

/-- C10: with `rest_only = true`, concatenating the `depth + 1` segments
yielded by `shard` reconstructs exactly the original string, for every
string, width and depth. -/
theorem shard_rest_only_roundtrip (s : Str) (width depth : Nat) :
    (Utils.shard s width depth true).flatten = s := by
  rw [Utils.shard, List.flatten_append, flatten_map_range_pySlice]
  simp [List.take_append_drop]

/-- C8: `hash_chunks` depends only on the concatenation of the chunks: two
chunk sequences with identical concatenated bytes produce the identical
digest, for every pluggable digest function. -/
theorem hash_chunks_chunking_invariant (digestmod : List Nat → Str)
    (chunks₁ chunks₂ : List (List Nat)) (h : chunks₁.flatten = chunks₂.flatten) :
    Utils.hash_chunks digestmod chunks₁ = Utils.hash_chunks digestmod chunks₂ := by
  unfold Utils.hash_chunks
  rw [foldl_append_eq_join, foldl_append_eq_join, h]

/-- Witness for C8 at a concrete input: two different chunkings of the bytes
`[1, 2, 3]` hash identically. -/
theorem hash_chunks_chunking_invariant_witness :
    ([[1], [2, 3]] : List (List Nat)).flatten = ([[1, 2], [3]] : List (List Nat)).flatten ∧
    Utils.hash_chunks demoDigestmod [[1], [2, 3]] =
      Utils.hash_chunks demoDigestmod [[1, 2], [3]] :=
  ⟨by decide, hash_chunks_chunking_invariant demoDigestmod _ _ (by decide)⟩

/-- C3: an unconfirmed delete is a no-op for every store, filesystem and
name: it returns without raising and the filesystem state is unchanged. -/
theorem delete_unconfirmed_noop (st : CAStorage) (fs : FS) (name : Str) :
    st.delete fs name false = .ok fs := rfl

/-- C4 (code bug, concrete evaluation): a confirmed delete of a well-formed
existing stored name raises `AttributeError` while evaluating `path.sep` on a
`str`, before the name dispatch, the unlink or the prune can happen.  Here
the stored name `"b"` resolves to `/data/b/b`, which exists in the
filesystem, yet the delete errors. -/
theorem delete_confirmed_attributeError :
    demoStore.path ("b".toList) = .ok ["data".toList, "b".toList, "b".toList] ∧
    demoFS1.existsFile ["data".toList, "b".toList, "b".toList] = true ∧
    demoStore.delete demoFS1 ("b".toList) true = .error .attributeError := by
  refine ⟨?_, ?_, ?_⟩ <;> rfl

lemma foldl_normStep_clean (l : List Str) :
    ∀ acc : List Str, (∀ s ∈ acc, s ≠ [] ∧ s ≠ ['.'] ∧ s ≠ ['.', '.']) →
      ∀ s ∈ l.foldl OsPath.normStep acc, s ≠ [] ∧ s ≠ ['.'] ∧ s ≠ ['.', '.'] := by
  induction l with
  | nil => intro acc h; simpa using h
  | cons a l ih =>
    intro acc hacc
    simp only [List.foldl_cons]
    apply ih
    intro s hs
    unfold OsPath.normStep at hs
    split_ifs at hs with h1 h2
    · exact hacc s hs
    · exact hacc s (List.dropLast_subset _ hs)
    · rcases List.mem_append.mp hs with h | h
      · exact hacc s h
      · push_neg at h1
        simp only [List.mem_singleton] at h
        subst h
        exact ⟨h1.1, h1.2, h2⟩

lemma foldl_normStep_of_clean (l : List Str) :
    (∀ s ∈ l, s ≠ [] ∧ s ≠ ['.'] ∧ s ≠ ['.', '.']) →
      ∀ acc : List Str, l.foldl OsPath.normStep acc = acc ++ l := by
  induction l with
  | nil => intro _ acc; simp
  | cons a l ih =>
    intro h acc
    have ha := h a (List.mem_cons_self a l)
    simp only [List.foldl_cons]
    have hstep : OsPath.normStep acc a = acc ++ [a] := by
      unfold OsPath.normStep
      rw [if_neg, if_neg ha.2.2]
      push_neg
      exact ⟨ha.1, ha.2.1⟩
    rw [hstep, ih (fun s hs => h s (List.mem_cons_of_mem a hs)), List.append_assoc]
    rfl

lemma normSegs_idem (l : List Str) :
    OsPath.normSegs (OsPath.normSegs l) = OsPath.normSegs l := by
  unfold OsPath.normSegs
  rw [foldl_normStep_of_clean _ (foldl_normStep_clean l [] (by simp)) []]
  rfl

/-- C5: path traversal safety of `physical_path`.  For every store and name:
if the name's shard segments, joined onto the configured root and normalized,
do not stay inside the (normalized) root, then `path` fails with
`SuspiciousOperation` (the spec's `SecurityViolation`); if they do stay
inside the root, `path` succeeds and returns exactly the normalized joined
path; and whenever `path` returns a result, that result lies inside the root
and is exactly the normalized joined path. -/
theorem path_secure (st : CAStorage) (name : Str) :
    ((OsPath.normSegs st.location).isPrefixOf
        (OsPath.normSegs (st.location ++ ((st.shard name).map OsPath.splitSep).flatten))
          = false →
      st.path name = .error .suspiciousOperation) ∧
    ((OsPath.normSegs st.location).isPrefixOf
        (OsPath.normSegs (st.location ++ ((st.shard name).map OsPath.splitSep).flatten))
          = true →
      st.path name = .ok (OsPath.normSegs
        (st.location ++ ((st.shard name).map OsPath.splitSep).flatten))) ∧
    (∀ p : List Str, st.path name = .ok p →
      (OsPath.normSegs st.location).isPrefixOf p = true ∧
      p = OsPath.normSegs
            (st.location ++ ((st.shard name).map OsPath.splitSep).flatten)) := by
  unfold CAStorage.path safe_join
  by_cases hc : (OsPath.normSegs st.location).isPrefixOf
      (OsPath.normSegs (st.location ++ ((st.shard name).map OsPath.splitSep).flatten))
  · simp only [hc, if_true]
    refine ⟨?_, ?_, ?_⟩
    · intro hfalse
      exact absurd hfalse (by decide)
    · intro _
      rw [normSegs_idem]
    · intro p hp
      simp only [Except.ok.injEq] at hp
      rw [normSegs_idem] at hp
      subst hp
      exact ⟨hc, rfl⟩
  · simp only [Bool.not_eq_true] at hc
    simp only [hc, Bool.false_eq_true, if_false]
    refine ⟨?_, ?_, ?_⟩
    · intro _
      trivial
    · intro htrue
      exact absurd htrue (by decide)
    · intro p hp
      simp at hp

/-- Witness for C5 at concrete inputs, exercising both directions: the
classic traversal name `"../../etc/passwd"` fails with `SuspiciousOperation`
on a store rooted at `/data`, while the in-root stored name `"b"` resolves
successfully to the normalized joined path `/data/b/b`. -/
theorem path_secure_witness :
    ((OsPath.normSegs demoStore.location).isPrefixOf
        (OsPath.normSegs (demoStore.location ++
          ((demoStore.shard ("../../etc/passwd".toList)).map OsPath.splitSep).flatten))
          = false ∧
      demoStore.path ("../../etc/passwd".toList) = .error .suspiciousOperation) ∧
    ((OsPath.normSegs demoStore.location).isPrefixOf
        (OsPath.normSegs (demoStore.location ++
          ((demoStore.shard ("b".toList)).map OsPath.splitSep).flatten)) = true ∧
      demoStore.path ("b".toList) = .ok (OsPath.normSegs (demoStore.location ++
        ((demoStore.shard ("b".toList)).map OsPath.splitSep).flatten)) ∧
      demoStore.path ("b".toList) =
        .ok ["data".toList, "b".toList, "b".toList]) :=
  ⟨⟨by decide, (path_secure demoStore ("../../etc/passwd".toList)).1 (by decide)⟩,
   ⟨by decide, (path_secure demoStore ("b".toList)).2.1 (by decide), by rfl⟩⟩

lemma existsFile_write (fs : FS) (p : List Str) (c : List Nat) :
    (fs.write p c).existsFile p = true := by
  simp [FS.write, FS.existsFile, FS.filePaths]

/-- C1: idempotent save.  If `save` succeeds, returning a filesystem `fs₁`
and stored name `n₁`, then (a) a second save of the same name and content on
`fs₁` performs no further write and returns the same stored name — so two
saves of the same content make exactly one physical write — and (b) if a file
already existed at `physical_path(n₁)` before the first save, that save
already performed no write at all (`fs₁ = fs`). -/
theorem save_idempotent (st : CAStorage) (digestmod : List Nat → Str) (fs : FS)
    (name : Str) (content : List Nat) (fs₁ : FS) (n₁ : Str)
    (h : st._save digestmod fs name content = .ok (fs₁, n₁)) :
    st._save digestmod fs₁ name content = .ok (fs₁, n₁) ∧
    (∀ p : List Str, st.path n₁ = .ok p → fs.existsFile p = true → fs₁ = fs) := by
  unfold CAStorage._save FileSystemStorage_save at h ⊢
  dsimp only at h ⊢
  set D := (if st.keep_extension then
      CAStorage.digest digestmod content ++ (OsPath.splitext name).2
    else CAStorage.digest digestmod content) with hD
  cases hp : st.path D with
  | error e => rw [hp] at h; simp at h
  | ok p =>
    rw [hp] at h
    dsimp only at h ⊢
    by_cases hex : fs.existsFile p = true
    · rw [if_pos hex] at h
      simp only [Except.ok.injEq, Prod.mk.injEq] at h
      obtain ⟨hfs, hn⟩ := h
      subst hfs
      subst hn
      constructor
      · rw [if_pos hex]
      · intro _ _ _
        rfl
    · rw [if_neg hex] at h
      simp only [Except.ok.injEq, Prod.mk.injEq] at h
      obtain ⟨hfs, hn⟩ := h
      subst hfs
      subst hn
      constructor
      · rw [if_pos (existsFile_write fs p content)]
      · intro p' hp' hex'
        rw [hp] at hp'
        simp only [Except.ok.injEq] at hp'
        subst hp'
        exact absurd hex' hex

/-- Witness for C1 at a concrete input: saving bytes `[1]` twice into an
empty store rooted at `/data` writes once and returns the digest `"b"` both
times. -/
theorem save_idempotent_witness :
    (demoStore._save demoDigestmod demoFS0 ("x".toList) [1] = .ok (demoFS1, "b".toList)) ∧
    (demoStore._save demoDigestmod demoFS1 ("x".toList) [1] = .ok (demoFS1, "b".toList) ∧
      (∀ p : List Str, demoStore.path ("b".toList) = .ok p →
        demoFS0.existsFile p = true → demoFS1 = demoFS0)) :=
  ⟨by rfl,
    save_idempotent demoStore demoDigestmod demoFS0 ("x".toList) [1] demoFS1
      ("b".toList) (by rfl)⟩

lemma pyRfind_nil (c : Char) : OsPath.pyRfind c [] = -1 := rfl

lemma pyRfind_cons (c a : Char) (rest : Str) :
    OsPath.pyRfind c (a :: rest) =
      if 0 ≤ OsPath.pyRfind c rest then OsPath.pyRfind c rest + 1
      else if a = c then 0 else -1 := rfl

lemma pyRfind_ge_neg_one (c : Char) (l : Str) : -1 ≤ OsPath.pyRfind c l := by
  induction l with
  | nil => rw [pyRfind_nil]
  | cons a rest ih =>
    rw [pyRfind_cons]
    split_ifs <;> omega

lemma pyRfind_lt_length (c : Char) (l : Str) :
    OsPath.pyRfind c l < (l.length : Int) := by
  induction l with
  | nil => rw [pyRfind_nil]; simp
  | cons a rest ih =>
    rw [pyRfind_cons]
    simp only [List.length_cons]
    push_cast
    split_ifs <;> omega

lemma pyRfind_append (c : Char) (ys : Str) :
    ∀ xs : Str, OsPath.pyRfind c (xs ++ ys) =
      if 0 ≤ OsPath.pyRfind c ys then (xs.length : Int) + OsPath.pyRfind c ys
      else OsPath.pyRfind c xs := by
  intro xs
  induction xs with
  | nil =>
    by_cases hy : 0 ≤ OsPath.pyRfind c ys
    · simp [hy]
    · have h1 := pyRfind_ge_neg_one c ys
      simp only [List.nil_append, pyRfind_nil]
      rw [if_neg hy]
      omega
  | cons a xs ih =>
    rw [List.cons_append, pyRfind_cons, ih, pyRfind_cons]
    by_cases hy : 0 ≤ OsPath.pyRfind c ys
    · rw [if_pos hy, if_pos hy]
      have h2 : (0 : Int) ≤ (xs.length : Int) + OsPath.pyRfind c ys := by
        have : (0 : Int) ≤ (xs.length : Int) := Int.natCast_nonneg _
        omega
      rw [if_pos h2]
      simp only [List.length_cons]
      push_cast
      ring
    · rw [if_neg hy, if_neg hy]

lemma any_ne_dot_eq_not_all (l : Str) :
    (l.any fun ch => decide (ch ≠ '.')) = !(l.all fun ch => ch == '.') := by
  induction l with
  | nil => rfl
  | cons a l ih =>
    simp only [List.any_cons, List.all_cons, ih, Bool.not_and]
    congr 1
    by_cases h : a = '.' <;> simp [h]

/-- The code's `splitext` extension agrees everywhere with the amended
claim's extension rule `claimedExt`. -/
lemma splitext_snd_eq_claimedExt (p : Str) :
    (OsPath.splitext p).2 = claimedExt p := by
  unfold OsPath.splitext claimedExt
  dsimp only
  set s := OsPath.pyRfind '/' p with hs
  set base := p.drop (s + 1).toNat with hbase
  have hs1 : -1 ≤ s := pyRfind_ge_neg_one '/' p
  have hs2 : s < (p.length : Int) := pyRfind_lt_length '/' p
  have hsplit : p.take (s + 1).toNat ++ base = p := List.take_append_drop _ p
  have hlen : ((p.take (s + 1).toNat).length : Int) = s + 1 := by
    simp only [List.length_take]
    have : (s + 1).toNat ≤ p.length := by omega
    omega
  have hglob : OsPath.pyRfind '.' p =
      if 0 ≤ OsPath.pyRfind '.' base
      then ((p.take (s + 1).toNat).length : Int) + OsPath.pyRfind '.' base
      else OsPath.pyRfind '.' (p.take (s + 1).toNat) := by
    conv_lhs => rw [← hsplit]
    exact pyRfind_append '.' base _
  set db := OsPath.pyRfind '.' base with hdb
  by_cases hb : 0 ≤ db
  · rw [if_pos hb, hlen] at hglob
    have hcond : s < OsPath.pyRfind '.' p := by rw [hglob]; omega
    rw [if_pos hcond]
    have hidx : (OsPath.pyRfind '.' p - s - 1).toNat = db.toNat := by
      rw [hglob]; omega
    have hdrop : (OsPath.pyRfind '.' p).toNat = (s + 1).toNat + db.toNat := by
      rw [hglob]; omega
    rw [hidx, if_neg (by omega : ¬ db < 0)]
    rw [any_ne_dot_eq_not_all]
    by_cases hall : ((base.take db.toNat).all fun ch => ch == '.') = true
    · rw [hall]
      simp
    · rw [Bool.not_eq_true] at hall
      rw [hall]
      simp only [Bool.not_false, Bool.false_eq_true, if_false]
      rw [if_pos trivial]
      show p.drop (OsPath.pyRfind '.' p).toNat = base.drop db.toNat
      rw [hdrop, hbase, List.drop_drop]
  · rw [if_neg hb] at hglob
    have h3 := pyRfind_lt_length '.' (p.take (s + 1).toNat)
    rw [hlen] at h3
    have hcond : ¬ s < OsPath.pyRfind '.' p := by rw [hglob]; omega
    rw [if_neg hcond, if_pos (by omega : db < 0)]

/-- Helper: whenever `_save` succeeds, the stored name it returns is the
digest, suffixed with the `splitext` extension exactly when `keep_extension`
is set. -/
lemma save_stored_name (st : CAStorage) (digestmod : List Nat → Str) (fs : FS)
    (name : Str) (content : List Nat) (fs₁ : FS) (n₁ : Str)
    (h : st._save digestmod fs name content = .ok (fs₁, n₁)) :
    n₁ = (if st.keep_extension then
        CAStorage.digest digestmod content ++ (OsPath.splitext name).2
      else CAStorage.digest digestmod content) := by
  unfold CAStorage._save FileSystemStorage_save at h
  dsimp only at h
  set D := (if st.keep_extension then
      CAStorage.digest digestmod content ++ (OsPath.splitext name).2
    else CAStorage.digest digestmod content) with hD
  cases hp : st.path D with
  | error e => rw [hp] at h; simp at h
  | ok p =>
    rw [hp] at h
    dsimp only at h
    by_cases hex : fs.existsFile p = true
    · rw [if_pos hex] at h
      simp only [Except.ok.injEq, Prod.mk.injEq] at h
      exact h.2.symm
    · rw [if_neg hex] at h
      simp only [Except.ok.injEq, Prod.mk.injEq] at h
      exact h.2.symm

/-- Counterexample to C7 as stated: with `keep_extension` enabled, saving
content `[1]` under the original name `".png"` — whose last path component
does contain a dot, so the claim's "text after the last dot including the
dot" is `".png"` — returns the bare digest `"b"`, not `"b" ++ ".png"`:
`splitext` treats the all-dots-before-the-dot component (a dotfile) as
having no extension. -/
theorem save_extension_counterexample :
    demoStoreExt._save demoDigestmod demoFS0 (".png".toList) [1] =
      .ok (demoFS1, "b".toList) ∧
    ("b".toList : Str) ≠ "b".toList ++ ".png".toList :=
  ⟨by rfl, by decide⟩

/-- C7 as amended: for every name and content, when `keep_extension` is
enabled the stored name returned by `save` is the digest with the original
name's extension appended, where the extension is the text from the last
`'.'` of the last path component to the end (including the dot), except that
it is empty when there is no dot or when every character of the component
before that dot is itself a dot (dotfiles); when `keep_extension` is
disabled the stored name is exactly the digest. -/
theorem save_extension_amended (st : CAStorage) (digestmod : List Nat → Str)
    (fs : FS) (name : Str) (content : List Nat) (fs₁ : FS) (n₁ : Str)
    (h : st._save digestmod fs name content = .ok (fs₁, n₁)) :
    n₁ = CAStorage.digest digestmod content ++
      (if st.keep_extension then claimedExt name else []) := by
  rw [save_stored_name st digestmod fs name content fs₁ n₁ h,
    ← splitext_snd_eq_claimedExt]
  cases hk : st.keep_extension <;> simp [hk]

/-- Witness for the amended C7 at a concrete input: saving `[1]` under the
name `"photo.png"` with extensions on stores it as `"b.png"` — the digest
`"b"` plus the extension `".png"`. -/
theorem save_extension_amended_witness :
    (demoStoreExt._save demoDigestmod demoFS0 ("photo.png".toList) [1] =
      .ok (demoFSext, "b.png".toList)) ∧
    ("b.png".toList : Str) = CAStorage.digest demoDigestmod [1] ++
      (if demoStoreExt.keep_extension then claimedExt ("photo.png".toList) else []) :=
  ⟨by rfl,
    save_extension_amended demoStoreExt demoDigestmod demoFS0 ("photo.png".toList)
      [1] demoFSext ("b.png".toList) (by rfl)⟩

lemma existsDir_iff (fs : FS) (q : List Str) :
    fs.existsDir q = true ↔ q ∈ fs.dirs := by
  simp [FS.existsDir]

lemma listdir_mem_iff (fs : FS) (d x : List Str) :
    x ∈ fs.listdir d ↔ (x ∈ fs.filePaths ∨ x ∈ fs.dirs) ∧ x ≠ [] ∧ x.dropLast = d := by
  simp [FS.listdir, List.mem_filter, List.mem_append, and_assoc]
  tauto

lemma listdir_nil_mono {fs fs' : FS} (hfp : fs'.filePaths = fs.filePaths)
    (hd : ∀ x, x ∈ fs'.dirs → x ∈ fs.dirs) {d : List Str}
    (h : fs.listdir d = []) : fs'.listdir d = [] := by
  rw [List.eq_nil_iff_forall_not_mem] at h ⊢
  intro x hx
  rw [listdir_mem_iff] at hx
  apply h x
  rw [listdir_mem_iff]
  rcases hx with ⟨hm, hne, hdl⟩
  refine ⟨?_, hne, hdl⟩
  rcases hm with hm | hm
  · rw [hfp] at hm
    exact Or.inl hm
  · exact Or.inr (hd x hm)

lemma prefix_dropLast_of_ne {p l : List Str} (h : p <+: l) (hne : p ≠ l) :
    p <+: l.dropLast := by
  have hle := h.length_le
  have hlt : p.length < l.length := by
    rcases Nat.lt_or_ge p.length l.length with h1 | h1
    · exact h1
    · exact absurd (h.eq_of_length (le_antisymm hle h1)) hne
  have hp := List.prefix_iff_eq_take.mp h
  rw [List.dropLast_eq_take, hp]
  have h2 : (l.take (l.length - 1)).take p.length = l.take p.length := by
    rw [List.take_take]
    congr 1
    omega
  rw [← h2]
  exact List.take_prefix _ _

lemma take_succ_child {q dir : List Str} (hq : q <+: dir) (hne : q ≠ dir) :
    dir.take (q.length + 1) <+: dir ∧ (dir.take (q.length + 1)).dropLast = q ∧
      dir.take (q.length + 1) ≠ [] := by
  have hlt : q.length < dir.length := by
    have hle := hq.length_le
    rcases Nat.lt_or_ge q.length dir.length with h1 | h1
    · exact h1
    · exact absurd (hq.eq_of_length (le_antisymm hle h1)) hne
  refine ⟨ List.take_prefix _ _, ?_, ?_⟩
  · have hlen : (dir.take (q.length + 1)).length = q.length + 1 := by
      rw [List.length_take]
      omega
    rw [List.dropLast_eq_take, hlen]
    simp only [Nat.add_sub_cancel]
    rw [List.take_take]
    have hmin : q.length ⊓ (q.length + 1) = q.length := by omega
    rw [hmin, ← List.prefix_iff_eq_take.mp hq]
  · intro hnil
    have hl := congrArg List.length hnil
    rw [List.length_take] at hl
    simp only [List.length_nil] at hl
    omega

lemma child_mem_listdir {fs : FS} {q dir : List Str} (hq : q <+: dir) (hne : q ≠ dir)
    (hmem : dir.take (q.length + 1) ∈ fs.dirs) :
    dir.take (q.length + 1) ∈ fs.listdir q := by
  obtain ⟨-, hdl, hnil⟩ := take_succ_child hq hne
  rw [listdir_mem_iff]
  exact ⟨Or.inr hmem, hnil, hdl⟩

/-- The invariant of the pruning loop: starting at a directory `dir` below
the root `r` (all intermediate directories existing), the loop succeeds; it
never touches files; it only ever removes directories, and every directory it
removes is a non-root ancestor in the `r`–`dir` chain that is empty in the
final state; conversely every chain directory that is empty in the final
state has been removed.  Stated by strong induction on the length of `dir`. -/
lemma pruneLoop_spec (r : List Str) :
    ∀ (n : Nat) (dir : List Str) (fs : FS), dir.length ≤ n →
      r <+: dir →
      r ∈ fs.dirs →
      (∀ q, q <+: dir → r <+: q → q ∈ fs.dirs) →
      ∃ fs' : FS, Utils.pruneLoop fs dir (some r) = .ok fs' ∧
        fs'.files = fs.files ∧
        (∀ d, d ∈ fs'.dirs → d ∈ fs.dirs) ∧
        (∀ d, d ∈ fs.dirs → d ∉ fs'.dirs →
          d ≠ r ∧ d <+: dir ∧ r <+: d ∧ fs'.listdir d = []) ∧
        (∀ q, q ∈ fs.dirs → q <+: dir → r <+: q → q ≠ r →
          fs'.listdir q = [] → q ∉ fs'.dirs) := by
  intro n
  induction n with
  | zero =>
    intro dir fs hlen hpre hr _
    have hdir : dir = [] := List.eq_nil_of_length_eq_zero (by omega)
    subst hdir
    have hreq : r = [] := List.prefix_nil.mp hpre
    subst hreq
    refine ⟨fs, ?_, rfl, fun d h => h, ?_, ?_⟩
    · rw [Utils.pruneLoop.eq_def]
      have h1 : fs.existsDir [] = true := (existsDir_iff fs []).mpr hr
      rw [if_neg (by simp [h1])]
      simp
    · intro d hd hnd
      exact absurd hd hnd
    · intro q _ hq _ hqr _
      exact absurd (List.prefix_nil.mp hq) hqr
  | succ n IH =>
    intro dir fs hlen hpre hr hanc
    have hdirmem : dir ∈ fs.dirs := hanc dir List.prefix_rfl hpre
    have hdirex : fs.existsDir dir = true := (existsDir_iff fs dir).mpr hdirmem
    by_cases hdr : r = dir
    · subst hdr
      refine ⟨fs, ?_, rfl, fun d h => h, ?_, ?_⟩
      · rw [Utils.pruneLoop.eq_def]
        rw [if_neg (by simp [hdirex])]
        simp
      · intro d hd hnd
        exact absurd hd hnd
      · intro q _ hq hrq hqr _
        exact absurd (hrq.eq_of_length
          (le_antisymm hrq.length_le hq.length_le)).symm hqr
    · by_cases hne : fs.listdir dir = []
      · -- the directory is empty: rmdir it and continue with the parent
        have hdner : dir ≠ [] := by
          intro h0
          subst h0
          exact hdr (List.prefix_nil.mp hpre)
        set fs₂ : FS := ⟨fs.files, fs.dirs.filter (fun q => decide (q ≠ dir))⟩ with hfs₂
        have hstep : Utils.pruneLoop fs dir (some r) =
            Utils.pruneLoop fs₂ dir.dropLast (some r) := by
          rw [Utils.pruneLoop.eq_def]
          rw [if_neg (by simp [hdirex])]
          rw [if_neg (by simp [hdr])]
          rw [if_neg (by simp [hne])]
          rw [dif_neg hdner]
          have hrm : fs.rmdirE dir = .ok fs₂ := by
            rw [FS.rmdirE]
            rw [if_neg (by simp [hdirex])]
            rw [if_neg (by simp [hne])]
          rw [hrm]
        have hpre' : r <+: dir.dropLast := prefix_dropLast_of_ne hpre hdr
        have hr₂ : r ∈ fs₂.dirs := by
          rw [hfs₂]
          simp only [List.mem_filter, decide_eq_true_eq]
          exact ⟨hr, hdr ∘ (fun h => h)⟩
        have hanc₂ : ∀ q, q <+: dir.dropLast → r <+: q → q ∈ fs₂.dirs := by
          intro q hq hrq
          have hqdir : q <+: dir := hq.trans (List.dropLast_prefix _)
          have hqne : q ≠ dir := by
            intro h0
            subst h0
            have h1 := hq.length_le
            rw [List.length_dropLast] at h1
            have h2 : q.length ≠ 0 := fun hc => hdner (List.eq_nil_of_length_eq_zero hc)
            omega
          rw [hfs₂]
          simp only [List.mem_filter, decide_eq_true_eq]
          exact ⟨hanc q hqdir hrq, hqne⟩
        have hlen' : dir.dropLast.length ≤ n := by
          rw [List.length_dropLast]
          omega
        obtain ⟨fs', hrun', hfiles', hsub', hrem', hcomp'⟩ :=
          IH dir.dropLast fs₂ hlen' hpre' hr₂ hanc₂
        have hsub : ∀ d, d ∈ fs'.dirs → d ∈ fs.dirs := by
          intro d hd
          have h2 := hsub' d hd
          rw [hfs₂] at h2
          simp only [List.mem_filter, decide_eq_true_eq] at h2
          exact h2.1
        have hfp : fs'.filePaths = fs.filePaths := by
          rw [FS.filePaths, hfiles']
          rfl
        refine ⟨fs', by rw [hstep]; exact hrun', hfiles', hsub, ?_, ?_⟩
        · intro d hd hnd
          by_cases hddir : d = dir
          · subst hddir
            refine ⟨fun h => hdr h.symm, List.prefix_rfl, hpre, ?_⟩
            exact listdir_nil_mono hfp hsub hne
          · have hd₂ : d ∈ fs₂.dirs := by
              rw [hfs₂]
              simp only [List.mem_filter, decide_eq_true_eq]
              exact ⟨hd, hddir⟩
            obtain ⟨hd1, hd2, hd3, hd4⟩ := hrem' d hd₂ hnd
            exact ⟨hd1, hd2.trans (List.dropLast_prefix _), hd3, hd4⟩
        · intro q hq hqdir hrq hqr hnil
          by_cases hqd : q = dir
          · subst hqd
            intro hmem'
            have h2 := hsub' _ hmem'
            rw [hfs₂] at h2
            simp only [List.mem_filter, decide_eq_true_eq] at h2
            exact h2.2 rfl
          · have hq₂ : q ∈ fs₂.dirs := by
              rw [hfs₂]
              simp only [List.mem_filter, decide_eq_true_eq]
              exact ⟨hq, hqd⟩
            exact hcomp' q hq₂ (prefix_dropLast_of_ne hqdir hqd) hrq hqr hnil
      · -- the directory is non-empty: the loop stops at once
        refine ⟨fs, ?_, rfl, fun d h => h, ?_, ?_⟩
        · rw [Utils.pruneLoop.eq_def]
          rw [if_neg (by simp [hdirex])]
          rw [if_neg (by simp [hdr])]
          rw [if_pos hne]
        · intro d hd hnd
          exact absurd hd hnd
        · intro q hq hqdir hrq hqr hnil
          exfalso
          by_cases hqd : q = dir
          · subst hqd
            exact hne hnil
          · obtain ⟨hcp, hcd, hcn⟩ := take_succ_child hqdir hqd
            have hrc : r <+: dir.take (q.length + 1) := by
              refine hrq.trans ?_
              conv_lhs => rw [← hcd]
              exact List.dropLast_prefix _
            have hcmem : dir.take (q.length + 1) ∈ fs.dirs := hanc _ hcp hrc
            have hchild := child_mem_listdir hqdir hqd hcmem
            rw [hnil] at hchild
            exact (List.not_mem_nil _) hchild

/-- C6: the remove-with-prune operation.  For every filesystem, existing file
and configured root directory lying (weakly) above the file's parent, with
all intermediate shard directories present: the operation succeeds; it
unlinks exactly the given file; the root directory itself is never removed,
even if it ends up empty; every removed directory is a non-root ancestor of
the file below the root that is empty afterwards (so the walk removed only
directories that had become empty, stopping at the first non-empty one); and
conversely every ancestor strictly between the root and the file's parent
that ends up empty has been removed.  (The model has no links, so the
`samestat` root comparison coincides with path equality.) -/
theorem rm_file_and_empty_parents_spec (fs : FS) (filename r : List Str)
    (hfile : fs.existsFile filename = true)
    (hroot : fs.existsDir r = true)
    (hunder : r.isPrefixOf filename.dropLast = true)
    (hanc : ∀ q ∈ filename.dropLast.inits, r.isPrefixOf q = true →
      fs.existsDir q = true) :
    ∃ fs' : FS, Utils.rm_file_and_empty_parents fs filename (some r) = .ok fs' ∧
      fs'.files = fs.files.filter (fun e => decide (e.1 ≠ filename)) ∧
      fs'.existsDir r = true ∧
      (∀ d, d ∈ fs'.dirs → d ∈ fs.dirs) ∧
      (∀ d, d ∈ fs.dirs → d ∉ fs'.dirs →
        d ≠ r ∧ d.isPrefixOf filename.dropLast = true ∧ r.isPrefixOf d = true ∧
          fs'.listdir d = []) ∧
      (∀ q, q ∈ fs.dirs → q.isPrefixOf filename.dropLast = true →
        r.isPrefixOf q = true → q ≠ r → fs'.listdir q = [] → q ∉ fs'.dirs) := by
  set fs₁ : FS := ⟨fs.files.filter (fun e => decide (e.1 ≠ filename)), fs.dirs⟩ with hfs₁
  have hrun : Utils.rm_file_and_empty_parents fs filename (some r) =
      Utils.pruneLoop fs₁ filename.dropLast (some r) := by
    rw [Utils.rm_file_and_empty_parents]
    rw [if_neg (by simp [hroot])]
    have hun : fs.unlinkE filename = .ok fs₁ := by
      rw [FS.unlinkE, if_pos hfile]
    rw [hun]
  obtain ⟨fs', hrun', hfiles', hsub', hrem', hcomp'⟩ :=
    pruneLoop_spec r filename.dropLast.length filename.dropLast fs₁ le_rfl
      (List.isPrefixOf_iff_prefix.mp hunder)
      ((existsDir_iff fs r).mp hroot)
      (fun q hq hrq =>
        (existsDir_iff fs q).mp
          (hanc q ((List.mem_inits q filename.dropLast).mpr hq)
            (List.isPrefixOf_iff_prefix.mpr hrq)))
  refine ⟨fs', by rw [hrun]; exact hrun', hfiles', ?_, hsub', ?_, ?_⟩
  · rw [existsDir_iff]
    by_contra hcon
    obtain ⟨hne, -, -, -⟩ := hrem' r ((existsDir_iff fs r).mp hroot) hcon
    exact hne rfl
  · intro d hd hnd
    obtain ⟨h1, h2, h3, h4⟩ := hrem' d hd hnd
    exact ⟨h1, List.isPrefixOf_iff_prefix.mpr h2, List.isPrefixOf_iff_prefix.mpr h3, h4⟩
  · intro q hq hqp hrq hqr hnil
    exact hcomp' q hq (List.isPrefixOf_iff_prefix.mp hqp)
      (List.isPrefixOf_iff_prefix.mp hrq) hqr hnil

/-- Witness for C6 at the spec's own example: root `/data`, file
`/data/1f/09/<digest>`, both shard directories become empty and are pruned
while `/data` itself survives. -/
theorem rm_file_and_empty_parents_spec_witness :
    (demoFSprune.existsFile demoPrunePath = true ∧
      demoFSprune.existsDir demoRoot = true ∧
      demoRoot.isPrefixOf demoPrunePath.dropLast = true ∧
      (∀ q ∈ demoPrunePath.dropLast.inits, demoRoot.isPrefixOf q = true →
        demoFSprune.existsDir q = true)) ∧
    (∃ fs' : FS,
      Utils.rm_file_and_empty_parents demoFSprune demoPrunePath (some demoRoot) =
        .ok fs' ∧
      fs'.files = demoFSprune.files.filter (fun e => decide (e.1 ≠ demoPrunePath)) ∧
      fs'.existsDir demoRoot = true ∧
      (∀ d, d ∈ fs'.dirs → d ∈ demoFSprune.dirs) ∧
      (∀ d, d ∈ demoFSprune.dirs → d ∉ fs'.dirs →
        d ≠ demoRoot ∧ d.isPrefixOf demoPrunePath.dropLast = true ∧
          demoRoot.isPrefixOf d = true ∧ fs'.listdir d = []) ∧
      (∀ q, q ∈ demoFSprune.dirs → q.isPrefixOf demoPrunePath.dropLast = true →
        demoRoot.isPrefixOf q = true → q ≠ demoRoot → fs'.listdir q = [] →
          q ∉ fs'.dirs)) :=
  ⟨⟨by decide, by decide, by decide, by decide⟩,
    rm_file_and_empty_parents_spec demoFSprune demoPrunePath demoRoot
      (by decide) (by decide) (by decide) (by decide)⟩

end DjCastor
